import Mathlib

/-!
Masstree node version word.

A shallow embedding of `src/masstree.h`: the version-word constants, the key-byte and
permutation accessors, the `Node` flag operations, `HasSplited`, `Lock` and `UnLock`.

`uint32_t` values are natural numbers below `2 ^ 32`; the two places where the
C++ could leave that range (bitwise complement and addition) go through
`not32` and `add32`, which reduce modulo `2 ^ 32`.
-/

namespace masstree

/-! ## Constants (masstree.h, lines 7-23) -/

/-- The constant `static const int32_t kNodeMax = 15`. -/
def kNodeMax : Int := 15

def kNodeLocked : Nat := 1 <<< 0
def kNodeInserting : Nat := 1 <<< 1
def kNodeSpliting : Nat := 1 <<< 2
def kNodeDeleted : Nat := 1 <<< 3
def kNodeIsRoot : Nat := 1 <<< 4
def kNodeIsBorder : Nat := 1 <<< 5
def kNodeUnused : Nat := 1 <<< 31
def kNodeVinsert : Nat := 0x00001fc0
def kNodeVinsertShift : Nat := 6
def kNodeVinsertLowbit : Nat := 1 <<< kNodeVinsertShift
def kNodeVsplit : Nat := 0x7fffe000
def kNodeVsplitShift : Nat := 13
def kNodeVsplitLowbit : Nat := 1 <<< kNodeVsplitShift

def kNodeDirty : Nat := kNodeInserting ||| kNodeSpliting

/-! ## Key bytes (masstree.h, lines 25-35)

A `uint8_t` is a natural number below `2 ^ 8`. -/

def kKeyTypeValue : Nat := 0x00
def kKeyTypeLayer : Nat := 0x40
def kKeyTypeUnstable : Nat := 0x80
def kKeyTypeNotFound : Nat := 0xff

/-- The function `KeyLength(key_len)`: `key_len & 0x7f`. -/
def KeyLength (key_len : Nat) : Nat := key_len &&& 0x7f

/-- The function `KeyType(key_len)`: `key_len & 0xc0`. -/
def KeyType (key_len : Nat) : Nat := key_len &&& 0xc0

/-! ## Permutations (masstree.h, lines 37-44)

A `uint64_t` is a natural number below `2 ^ 64`. -/

def kPermutationInit : Nat := 0xedcba98765432100

/-- The function `NumKeys(permutation)`: `permutation & 0xf`. -/
def NumKeys (permutation : Nat) : Nat := permutation &&& 0xf

/-- The function `IndexKey(permutation, index)`: `(permutation >> (index * 4 + 4)) & 0xf`.
The parameter `index` is an `int`; the C++ shift is defined when the count `index * 4 + 4`
lies in `0..63`, and there the count below is that number. -/
def IndexKey (permutation : Nat) (index : Int) : Nat :=
  (permutation >>> ((index * 4) + 4).toNat) &&& 0xf

/-! ## 32-bit arithmetic -/

/-- The number of values of a `uint32_t`. -/
def wordSize : Nat := 2 ^ 32

/-- Bitwise complement `~x` of a `uint32_t`. -/
def not32 (x : Nat) : Nat := (wordSize - 1) - x % wordSize

/-- Addition `a + b` of two `uint32_t`, wrapping modulo `2 ^ 32`. -/
def add32 (a b : Nat) : Nat := (a + b) % wordSize

/-! ## Node (masstree.h, lines 46-148) -/

/-- The base class `Node`: its only data member is the atomic version word. -/
structure Node where
  version_ : Nat
  deriving DecidableEq, Repr

namespace Node

def version (n : Node) : Nat := n.version_

/-- The method `bool Locked()`: a non-zero `version_ & kNodeLocked` converts to `true`. -/
def Locked (n : Node) : Bool := (n.version_ &&& kNodeLocked) != 0

/-- The overload `bool Locked(const uint32_t version)`. -/
def LockedVersion (version : Nat) : Bool := (version &&& kNodeLocked) != 0

def MarkLocked (n : Node) : Node := { n with version_ := n.version_ ||| kNodeLocked }

def Inserting (n : Node) : Bool := (n.version_ &&& kNodeInserting) != 0

def MarkInserting (n : Node) : Node := { n with version_ := n.version_ ||| kNodeInserting }

def Spliting (n : Node) : Bool := (n.version_ &&& kNodeSpliting) != 0

/-- The statement `version_ |= kNodeSpliting` (line 76), the store of `MarkSpliting()`. -/
def markSplitingStore (n : Node) : Node := { n with version_ := n.version_ ||| kNodeSpliting }

/-- The closing brace of a function that is declared to return a value, reached without a
`return` statement. The behaviour of the call is undefined from here on, so the call has no
outcome: `none`, whatever the node was. -/
def flowOffEnd (_n : Node) : Option Node := none

/-- The method `bool MarkSpliting()` (lines 75-78): the store, the compiler barrier, and the
closing brace. The method is declared `bool` (the other `Mark` methods are `void`) and has no
`return` statement, so every call flows off the end. `none` stands for undefined behaviour,
`some` for a call that returns. -/
def MarkSpliting (n : Node) : Option Node := flowOffEnd (markSplitingStore n)

/-- The method `HasSplited(version)`: `(version_ ^ version) > kNodeVsplitLowbit`. -/
def HasSplited (n : Node) (version : Nat) : Bool :=
  decide ((n.version_ ^^^ version) > kNodeVsplitLowbit)

def Deleted (n : Node) : Bool := (n.version_ &&& kNodeDeleted) != 0

def MarkDeleted (n : Node) : Node := { n with version_ := n.version_ ||| kNodeDeleted }

def IsRoot (n : Node) : Bool := (n.version_ &&& kNodeIsRoot) != 0

def MarkIsRoot (n : Node) : Node := { n with version_ := n.version_ ||| kNodeIsRoot }

/-- The method `UnmarkIsRoot()`: `version_ |= ~kNodeIsRoot`. -/
def UnmarkIsRoot (n : Node) : Node := { n with version_ := n.version_ ||| not32 kNodeIsRoot }

def IsBorder (n : Node) : Bool := (n.version_ &&& kNodeIsBorder) != 0

def MarkIsBorder (n : Node) : Node := { n with version_ := n.version_ ||| kNodeIsBorder }

/-- The method `UnmarkIsBorder()`: `version_ |= ~kNodeIsBorder`. -/
def UnmarkIsBorder (n : Node) : Node :=
  { n with version_ := n.version_ ||| not32 kNodeIsBorder }

/-- The first `if` of `UnLock`: the insert-generation update applied to the local `v`. -/
def unlockInsert (v : Nat) : Nat :=
  (v &&& not32 kNodeVinsert) ||| add32 (v &&& kNodeVinsert) (1 <<< kNodeVinsertShift)

/-- The second `if` of `UnLock`: the split-generation update applied to the local `v`. -/
def unlockSplit (v : Nat) : Nat :=
  ((v &&& not32 kNodeIsRoot) &&& not32 kNodeVsplit) |||
    (add32 (v &&& kNodeVsplit) (1 <<< kNodeVsplitShift) &&& kNodeVsplit)

/-- The method `UnLock()`: load, the two conditional counter updates (each condition
re-reads `version_`, which no statement has changed since the load), the clearing of the
three low flags, and the store. -/
def UnLock (n : Node) : Node :=
  let v := n.version_
  let v := if n.Inserting then unlockInsert v else v
  let v := if n.Spliting then unlockSplit v else v
  let v := v &&& not32 (kNodeLocked ||| kNodeInserting ||| kNodeSpliting)
  { n with version_ := v }

end Node

/-- The constructor `InteriorNode() : Node(0)`. -/
def InteriorNode : Node := ⟨0⟩

/-- The constructor `BorderNode() : Node(kNodeIsBorder)`. -/
def BorderNode : Node := ⟨kNodeIsBorder⟩

/-! ## Fields of the version word -/

/-- The insert-generation counter of a version word: the `kNodeVinsert` field, bits 6..12. -/
def vinsertOf (v : Nat) : Nat := (v &&& kNodeVinsert) >>> kNodeVinsertShift

/-- The split-generation counter of a version word: the `kNodeVsplit` field, bits 13..30. -/
def vsplitOf (v : Nat) : Nat := (v &&& kNodeVsplit) >>> kNodeVsplitShift

/-! ## Lock (masstree.h, lines 117-131)

`Lock()` is a loop around atomic accesses to `version_`, so it is embedded as a step
function: a call is at one of four control points and owns the local `v`; each step performs
one atomic access (or the test of the local) and moves to the next control point. -/

/-- Control points of one call of `Lock()`. -/
inductive LockPc
  /-- Before `v = version_.load()`. -/
  | load
  /-- At `if (Locked(v))`, the head of the body of `while (true)`. -/
  | test
  /-- At `version_.compare_exchange_weak(v, v | kNodeLocked)`, the inner loop condition. -/
  | cas
  /-- After `break`: the call has returned. -/
  | done
  deriving DecidableEq, Repr

/-- One call of `Lock()`: its control point and its local variable `v`. -/
structure LockCall where
  pc : LockPc
  v : Nat
  deriving DecidableEq, Repr

/-- A call that has not yet executed its first statement (`v` is still unassigned). -/
def LockCall.start : LockCall := ⟨LockPc.load, 0⟩

/-- One step of a call of `Lock()` on the node `n`.
* `load`: `v = version_.load()`.
* `test`: if `Locked(v)` then `pause; continue`, back to the same test with the same `v`;
  otherwise fall through to the inner loop.
* `cas`: `compare_exchange_weak(v, v | kNodeLocked)`. It succeeds when `version_` equals `v`
  and the weak exchange does not fail spuriously: `v | kNodeLocked` is stored and the call
  leaves both loops. Otherwise the current `version_` is copied into `v` and the exchange is
  tried again.
* `done`: the call has returned, nothing changes. -/
def lockStep (spurious : Bool) (n : Node) (c : LockCall) : Node × LockCall :=
  match c.pc with
  | LockPc.load => (n, ⟨LockPc.test, n.version_⟩)
  | LockPc.test =>
      if Node.LockedVersion c.v then (n, ⟨LockPc.test, c.v⟩) else (n, ⟨LockPc.cas, c.v⟩)
  | LockPc.cas =>
      if n.version_ = c.v ∧ spurious = false then
        ({ n with version_ := c.v ||| kNodeLocked }, ⟨LockPc.done, c.v⟩)
      else (n, ⟨LockPc.cas, n.version_⟩)
  | LockPc.done => (n, c)

/-- Runs a call of `Lock()` alone on a node. The list says, for each step, whether a weak
exchange attempted at that step fails spuriously; the result is the node at the moment the
call returns, or `none` if the call has not returned when the list is used up. -/
def lockRun : List Bool → Node → LockCall → Option Node
  | [], n, c => if c.pc = LockPc.done then some n else none
  | s :: ss, n, c =>
      if c.pc = LockPc.done then some n
      else lockRun ss (lockStep s n c).1 (lockStep s n c).2

/-- The method `Lock()` called by a single thread. -/
def Node.Lock (oracle : List Bool) (n : Node) : Option Node :=
  lockRun oracle n LockCall.start

/-! ### Two threads on one node -/

/-- A node shared by two threads, each inside (or past) a call of `Lock()`. -/
structure LockSystem where
  node : Node
  t0 : LockCall
  t1 : LockCall
  deriving DecidableEq, Repr

/-- Scheduler events: a thread takes one step of its `Lock()` call, or the thread holding the
lock executes `UnLock()`. -/
inductive Event
  | step0 (spurious : Bool)
  | step1 (spurious : Bool)
  | unlock
  deriving DecidableEq, Repr

def sysStep (s : LockSystem) : Event → LockSystem
  | Event.step0 sp => { s with node := (lockStep sp s.node s.t0).1, t0 := (lockStep sp s.node s.t0).2 }
  | Event.step1 sp => { s with node := (lockStep sp s.node s.t1).1, t1 := (lockStep sp s.node s.t1).2 }
  | Event.unlock => { s with node := s.node.UnLock }

/-- Runs a schedule, first event first. -/
def sysRun (s : LockSystem) (es : List Event) : LockSystem := es.foldl sysStep s

/-- Two threads about to call `Lock()` on a freshly constructed interior node. -/
def freshSystem : LockSystem := ⟨InteriorNode, LockCall.start, LockCall.start⟩

/-- Both threads load, both pass the test of their local `v`, thread 0 exchanges, thread 1
exchanges twice. No exchange fails spuriously. -/
def bothReturnSchedule : List Event :=
  [Event.step0 false, Event.step1 false, Event.step0 false, Event.step1 false,
   Event.step0 false, Event.step1 false, Event.step1 false]

/-- Thread 0 runs its whole call (load, test, exchange), thread 1 loads, thread 0 unlocks. -/
def waitSchedule : List Event :=
  [Event.step0 false, Event.step0 false, Event.step0 false, Event.step1 false, Event.unlock]

/-! ## The lock discipline -/

/-- One split critical section on a node: the lock is taken (the successful exchange of
`Lock()` stores `v | kNodeLocked`, the word `MarkLocked` stores), `MarkSpliting()`,
`UnLock()`. Of `MarkSpliting()` the store of line 76 is taken; that the call has no defined
return is the subject of `Node.MarkSpliting`. -/
def splitSection (n : Node) : Node := n.MarkLocked.markSplitingStore.UnLock

/-- Version words reachable from a freshly constructed node by the lock discipline:
`Lock` on an unlocked node, the `Mark` operations and `UnLock` on a locked node. A step is
taken when the call returns: a `Lock()` that returns `m`, a `MarkSpliting()` that returns
`m`. -/
inductive Reachable : Node → Prop
  | interior : Reachable InteriorNode
  | border : Reachable BorderNode
  | lock (n m : Node) (oracle : List Bool) :
      Reachable n → n.Locked = false → n.Lock oracle = some m → Reachable m
  | markInserting (n : Node) : Reachable n → n.Locked = true → Reachable n.MarkInserting
  | markSpliting (n m : Node) :
      Reachable n → n.Locked = true → n.MarkSpliting = some m → Reachable m
  | markDeleted (n : Node) : Reachable n → n.Locked = true → Reachable n.MarkDeleted
  | markIsRoot (n : Node) : Reachable n → n.Locked = true → Reachable n.MarkIsRoot
  | markIsBorder (n : Node) : Reachable n → n.Locked = true → Reachable n.MarkIsBorder
  | unlock (n : Node) : Reachable n → n.Locked = true → Reachable n.UnLock

/-! ## Bit-level lemmas -/

/-- Masking with `w` contiguous bits starting at bit `lo` selects a field. -/
theorem and_field (v lo w : Nat) :
    v &&& ((2 ^ w - 1) <<< lo) = (v / 2 ^ lo % 2 ^ w) * 2 ^ lo := by
  apply Nat.eq_of_testBit_eq
  intro i
  rw [← Nat.shiftLeft_eq, ← Nat.shiftRight_eq_div_pow]
  simp only [Nat.testBit_and, Nat.testBit_shiftLeft, Nat.testBit_two_pow_sub_one,
    Nat.testBit_mod_two_pow, Nat.testBit_shiftRight]
  by_cases h : lo ≤ i
  · have : lo + (i - lo) = i := by omega
    simp [h, this, Bool.and_comm]
  · simp [h]

/-- Two numbers with no common bit: their bitwise OR is their sum. -/
theorem or_eq_add_of_and_eq_zero (x y : Nat) (h : x &&& y = 0) : x ||| y = x + y := by
  induction x using Nat.strong_induction_on generalizing y with
  | _ x ih =>
    by_cases hx : x = 0
    · subst hx; simp
    · have hdiv : x / 2 &&& y / 2 = 0 := by rw [← Nat.and_div_two, h]
      have hrec := ih (x / 2) (by omega) (y / 2) hdiv
      rw [← Nat.or_div_two] at hrec
      have hand : ¬ ((x &&& y) % 2 = 1) := by rw [h]; decide
      rw [Nat.and_mod_two_eq_one] at hand
      have hor := @Nat.or_mod_two_eq_one x y
      by_cases h1 : (x ||| y) % 2 = 1
      · have := hor.mp h1
        omega
      · have : ¬ (x % 2 = 1 ∨ y % 2 = 1) := fun hc => h1 (hor.mpr hc)
        omega

/-- A single flag mask selects one bit. -/
theorem and_two_pow (v k : Nat) : v &&& 2 ^ k = (v / 2 ^ k % 2) * 2 ^ k := by
  have := and_field v k 1
  simpa [Nat.shiftLeft_eq] using this

/-- Setting bit `k` adds `2 ^ k` exactly when the bit was clear. -/
theorem or_two_pow (v k : Nat) : v ||| 2 ^ k = v + 2 ^ k * (1 - v / 2 ^ k % 2) := by
  have hand := and_two_pow v k
  have hlt : v / 2 ^ k % 2 < 2 := Nat.mod_lt _ (by decide)
  by_cases hb : v / 2 ^ k % 2 = 0
  · rw [hb] at hand
    rw [hb, or_eq_add_of_and_eq_zero v (2 ^ k) (by simpa using hand)]
    simp
  · have h1 : v / 2 ^ k % 2 = 1 := by omega
    rw [h1] at hand
    rw [h1]
    have : v ||| 2 ^ k = v := by
      apply Nat.eq_of_testBit_eq
      intro i
      have hi := congrArg (fun t => Nat.testBit t i) hand
      simp only [Nat.testBit_and, Nat.one_mul] at hi
      rw [Nat.testBit_or]
      cases hv : v.testBit i <;> simp_all
    simpa using this

/-- Masking a 32-bit word with a complemented mask removes the masked part. -/
theorem and_not32 (v m : Nat) (hv : v < wordSize) (hm : m < wordSize) :
    (v &&& not32 m) + (v &&& m) = v := by
  have hbit : ∀ i, (not32 m).testBit i = (decide (i < 32) && !m.testBit i) := by
    intro i
    have hm32 : m < 2 ^ 32 := hm
    rw [← Nat.testBit_two_pow_sub_succ hm32 i]
    congr 1
    unfold not32 wordSize
    rw [Nat.mod_eq_of_lt hm32]
    omega
  have hdisj : (v &&& not32 m) &&& (v &&& m) = 0 := by
    apply Nat.eq_of_testBit_eq
    intro i
    simp only [Nat.testBit_and, hbit, Nat.zero_testBit]
    cases v.testBit i <;> cases m.testBit i <;> simp
  rw [← or_eq_add_of_and_eq_zero _ _ hdisj]
  apply Nat.eq_of_testBit_eq
  intro i
  simp only [Nat.testBit_or, Nat.testBit_and, hbit]
  by_cases hi : i < 32
  · cases v.testBit i <;> cases m.testBit i <;> simp [hi]
  · have : v.testBit i = false :=
      Nat.testBit_lt_two_pow (Nat.lt_of_lt_of_le hv (Nat.pow_le_pow_right (by decide) (by omega)))
    simp [this]

/-- Two numbers confined to complementary parts of a mask have no common bit. -/
theorem and_eq_zero_of_mask (x y m : Nat) (hx : x &&& m = 0) (hy : y &&& m = y) :
    x &&& y = 0 := by
  rw [← hy, Nat.and_comm y m, ← Nat.and_assoc, hx, Nat.zero_and]

theorem and_kNodeVinsert (x : Nat) : x &&& kNodeVinsert = (x / 64 % 128) * 64 := by
  have h : kNodeVinsert = (2 ^ 7 - 1) <<< 6 := by decide
  rw [h, and_field]
  norm_num

theorem and_kNodeVsplit (x : Nat) : x &&& kNodeVsplit = (x / 8192 % 262144) * 8192 := by
  have h : kNodeVsplit = (2 ^ 18 - 1) <<< 13 := by decide
  rw [h, and_field]
  norm_num

theorem and_kNodeIsRoot (x : Nat) : x &&& kNodeIsRoot = (x / 16 % 2) * 16 := by
  have h : kNodeIsRoot = 2 ^ 4 := by decide
  rw [h, and_two_pow]
  norm_num

/-- A flag test `(v & (1 << k)) != 0` reads bit `k`. -/
theorem flag_test (v k : Nat) : ((v &&& 1 <<< k) != 0) = decide (v / 2 ^ k % 2 = 1) := by
  rw [Nat.shiftLeft_eq, Nat.one_mul, and_two_pow]
  have hpos : 0 < 2 ^ k := Nat.two_pow_pos k
  have hlt : v / 2 ^ k % 2 < 2 := Nat.mod_lt _ (by decide)
  by_cases hb : v / 2 ^ k % 2 = 0
  · simp [hb]
  · have h1 : v / 2 ^ k % 2 = 1 := by omega
    simp [h1]

/-- The insert-generation update in arithmetic form, below the last counter value. -/
theorem unlockInsert_eq_of_lt (v : Nat) (hv : v < wordSize) (hg : v / 64 % 128 < 127) :
    Node.unlockInsert v = v + 64 := by
  have hv32 : v < 4294967296 := hv
  unfold Node.unlockInsert
  have hsplit := and_not32 v kNodeVinsert hv (by decide)
  have hfield := and_kNodeVinsert v
  have hadd : add32 (v &&& kNodeVinsert) (1 <<< kNodeVinsertShift) = (v / 64 % 128 + 1) * 64 := by
    have h1 : (1 <<< kNodeVinsertShift) = 64 := by decide
    rw [h1, hfield]
    unfold add32 wordSize
    omega
  have hrest : (v &&& not32 kNodeVinsert) &&& kNodeVinsert = 0 := by
    rw [and_kNodeVinsert]
    omega
  have hin : ((v / 64 % 128 + 1) * 64) &&& kNodeVinsert = (v / 64 % 128 + 1) * 64 := by
    rw [and_kNodeVinsert]
    omega
  rw [hadd, or_eq_add_of_and_eq_zero _ _ (and_eq_zero_of_mask _ _ _ hrest hin)]
  omega

/-- The insert-generation update in arithmetic form, at the last counter value: the field
wraps to zero and bit 13 is set. -/
theorem unlockInsert_eq_of_eq (v : Nat) (hv : v < wordSize) (hg : v / 64 % 128 = 127) :
    Node.unlockInsert v = v - 8128 + 8192 * (1 - v / 8192 % 2) := by
  have hv32 : v < 4294967296 := hv
  unfold Node.unlockInsert
  have hsplit := and_not32 v kNodeVinsert hv (by decide)
  have hfield := and_kNodeVinsert v
  have hadd : add32 (v &&& kNodeVinsert) (1 <<< kNodeVinsertShift) = 2 ^ 13 := by
    have h1 : (1 <<< kNodeVinsertShift) = 64 := by decide
    rw [h1, hfield]
    unfold add32 wordSize
    omega
  rw [hadd, or_two_pow]
  omega

/-- The split-generation update in arithmetic form: `is_root` is cleared and the 18-bit
field is incremented modulo `2 ^ 18`. -/
theorem unlockSplit_eq (v : Nat) (hv : v < wordSize) :
    Node.unlockSplit v =
      v - 16 * (v / 16 % 2) - 8192 * (v / 8192 % 262144)
        + 8192 * ((v / 8192 % 262144 + 1) % 262144) := by
  have hv32 : v < 4294967296 := hv
  unfold Node.unlockSplit
  have hroot := and_not32 v kNodeIsRoot hv (by decide)
  rw [and_kNodeIsRoot] at hroot
  have ha : v &&& not32 kNodeIsRoot < wordSize := by unfold wordSize; omega
  have hrest := and_not32 (v &&& not32 kNodeIsRoot) kNodeVsplit ha (by decide)
  rw [and_kNodeVsplit] at hrest
  have hfield := and_kNodeVsplit v
  have hadd : add32 (v &&& kNodeVsplit) (1 <<< kNodeVsplitShift)
      = (v / 8192 % 262144 + 1) * 8192 := by
    have h1 : (1 <<< kNodeVsplitShift) = 8192 := by decide
    rw [h1, hfield]
    unfold add32 wordSize
    omega
  rw [hadd, and_kNodeVsplit]
  have hout : ((v &&& not32 kNodeIsRoot) &&& not32 kNodeVsplit) &&& kNodeVsplit = 0 := by
    rw [and_kNodeVsplit]
    omega
  have hin : (((v / 8192 % 262144 + 1) * 8192 / 8192 % 262144) * 8192) &&& kNodeVsplit
      = ((v / 8192 % 262144 + 1) * 8192 / 8192 % 262144) * 8192 := by
    rw [and_kNodeVsplit]
    omega
  rw [or_eq_add_of_and_eq_zero _ _ (and_eq_zero_of_mask _ _ _ hout hin)]
  omega

/-- Clearing the three low flags `locked`, `inserting`, `splitting`. -/
theorem and_not_low_flags (v : Nat) (hv : v < wordSize) :
    v &&& not32 (kNodeLocked ||| kNodeInserting ||| kNodeSpliting) = v - v % 8 := by
  have h := and_not32 v (kNodeLocked ||| kNodeInserting ||| kNodeSpliting) hv (by decide)
  have hm : (kNodeLocked ||| kNodeInserting ||| kNodeSpliting) = 2 ^ 3 - 1 := by decide
  rw [hm, Nat.and_pow_two_sub_one_eq_mod] at h
  rw [hm]
  omega

/-! ## Flags and fields in arithmetic form -/

theorem Locked_eq (n : Node) : n.Locked = decide (n.version_ % 2 = 1) := by
  have h := flag_test n.version_ 0
  simpa [Node.Locked, kNodeLocked] using h

theorem Inserting_eq (n : Node) : n.Inserting = decide (n.version_ / 2 % 2 = 1) := by
  have h := flag_test n.version_ 1
  simpa [Node.Inserting, kNodeInserting] using h

theorem Spliting_eq (n : Node) : n.Spliting = decide (n.version_ / 4 % 2 = 1) := by
  have h := flag_test n.version_ 2
  simpa [Node.Spliting, kNodeSpliting] using h

theorem IsRoot_eq (n : Node) : n.IsRoot = decide (n.version_ / 16 % 2 = 1) := by
  have h := flag_test n.version_ 4
  simpa [Node.IsRoot, kNodeIsRoot] using h

theorem vinsertOf_eq (v : Nat) : vinsertOf v = v / 64 % 128 := by
  unfold vinsertOf
  rw [and_kNodeVinsert, Nat.shiftRight_eq_div_pow]
  have : (2 : Nat) ^ kNodeVinsertShift = 64 := by decide
  rw [this]
  omega

theorem vsplitOf_eq (v : Nat) : vsplitOf v = v / 8192 % 262144 := by
  unfold vsplitOf
  rw [and_kNodeVsplit, Nat.shiftRight_eq_div_pow]
  have : (2 : Nat) ^ kNodeVsplitShift = 8192 := by decide
  rw [this]
  omega

/-- The insert-generation update in arithmetic form. -/
theorem unlockInsert_eq (v : Nat) (hv : v < wordSize) :
    Node.unlockInsert v =
      if v / 64 % 128 < 127 then v + 64 else v - 8128 + 8192 * (1 - v / 8192 % 2) := by
  split
  · next h => exact unlockInsert_eq_of_lt v hv h
  · next h => exact unlockInsert_eq_of_eq v hv (by omega)

theorem unlockInsert_lt (v : Nat) (hv : v < wordSize) : Node.unlockInsert v < wordSize := by
  rw [unlockInsert_eq v hv]
  unfold wordSize at *
  split <;> omega

/-- The word stored by `UnLock()` in arithmetic form. -/
theorem UnLock_version (n : Node) (hv : n.version_ < wordSize) :
    n.UnLock.version_ =
      (if n.version_ / 4 % 2 = 1 then
          Node.unlockSplit (if n.version_ / 2 % 2 = 1 then Node.unlockInsert n.version_
            else n.version_)
        else (if n.version_ / 2 % 2 = 1 then Node.unlockInsert n.version_ else n.version_))
      - (if n.version_ / 4 % 2 = 1 then
          Node.unlockSplit (if n.version_ / 2 % 2 = 1 then Node.unlockInsert n.version_
            else n.version_)
        else (if n.version_ / 2 % 2 = 1 then Node.unlockInsert n.version_ else n.version_))
        % 8 := by
  have h1 : (if n.version_ / 2 % 2 = 1 then Node.unlockInsert n.version_ else n.version_)
      < wordSize := by
    split
    · exact unlockInsert_lt _ hv
    · exact hv
  have h2 : (if n.version_ / 4 % 2 = 1 then
      Node.unlockSplit (if n.version_ / 2 % 2 = 1 then Node.unlockInsert n.version_
        else n.version_)
      else (if n.version_ / 2 % 2 = 1 then Node.unlockInsert n.version_ else n.version_))
      < wordSize := by
    split
    · rw [unlockSplit_eq _ h1]
      unfold wordSize at *
      omega
    · exact h1
  rw [← and_not_low_flags _ h2]
  simp only [Node.UnLock, Inserting_eq, Spliting_eq, decide_eq_true_eq]

/-- Whatever word `UnLock()` starts from, the word it stores has the three low flags clear. -/
theorem UnLock_clears_flags_aux (n : Node) :
    n.UnLock.Locked = false ∧ n.UnLock.Inserting = false ∧ n.UnLock.Spliting = false := by
  have key : ∀ x k : Nat,
      not32 (kNodeLocked ||| kNodeInserting ||| kNodeSpliting) &&& k = 0 →
      ((x &&& not32 (kNodeLocked ||| kNodeInserting ||| kNodeSpliting)) &&& k != 0) = false := by
    intro x k hk
    rw [Nat.and_assoc, hk, Nat.and_zero]
    rfl
  refine ⟨?_, ?_, ?_⟩
  · exact key _ kNodeLocked (by decide)
  · exact key _ kNodeInserting (by decide)
  · exact key _ kNodeSpliting (by decide)

/-- Setting any flag leaves a set `locked` bit set. -/
theorem Mark_keeps_Locked (n : Node) (k : Nat) (hl : n.Locked = true) :
    Node.Locked ⟨n.version_ ||| 1 <<< k⟩ = true := by
  rw [Locked_eq, decide_eq_true_eq] at *
  exact Nat.or_mod_two_eq_one.mpr (Or.inl hl)

theorem MarkLocked_Locked (n : Node) : Node.Locked ⟨n.version_ ||| kNodeLocked⟩ = true := by
  rw [Locked_eq, decide_eq_true_eq]
  exact Nat.or_mod_two_eq_one.mpr (Or.inr (by decide))

/-- A call at its exchange, alone on the node and with `v` equal to the node's word, can only
return having stored `v | kNodeLocked`. -/
theorem lockRun_cas (oracle : List Bool) (n m : Node)
    (h : lockRun oracle n ⟨LockPc.cas, n.version_⟩ = some m) :
    m = ⟨n.version_ ||| kNodeLocked⟩ := by
  induction oracle with
  | nil => simp [lockRun] at h
  | cons s ss ih =>
    cases s with
    | true =>
      simp only [lockRun, lockStep] at h
      simpa using ih (by simpa using h)
    | false =>
      simp only [lockRun, lockStep] at h
      cases ss <;> simp [lockRun] at h <;> exact h.symm

/-- A single-threaded `Lock()` on an unlocked node can only return having stored
`version_ | kNodeLocked`. -/
theorem Lock_version (n m : Node) (oracle : List Bool) (hfree : n.Locked = false)
    (h : n.Lock oracle = some m) : m = ⟨n.version_ ||| kNodeLocked⟩ := by
  have hfree2 : Node.LockedVersion n.version_ = false := hfree
  unfold Node.Lock at h
  match oracle, h with
  | [], h => simp [lockRun, LockCall.start] at h
  | [_], h => simp [lockRun, LockCall.start, lockStep] at h
  | _ :: _ :: ss, h =>
    simp only [lockRun, LockCall.start, lockStep, hfree2] at h
    exact lockRun_cas ss n m (by simpa using h)

/-- A single-threaded `Lock()` on an unlocked node returns after three steps when its
exchange does not fail spuriously. -/
theorem Lock_returns (n : Node) (hfree : n.Locked = false) :
    n.Lock [false, false, false] = some ⟨n.version_ ||| kNodeLocked⟩ := by
  have hfree2 : Node.LockedVersion n.version_ = false := hfree
  simp [Node.Lock, lockRun, LockCall.start, lockStep, hfree2]

/-- A call at the test of a local `v` that has the `locked` bit stays there: its steps change
neither the node nor the call. -/
theorem sysRun_spinning (oracle : List Bool) (s : LockSystem) (hpc : s.t1.pc = LockPc.test)
    (hv : Node.LockedVersion s.t1.v = true) :
    List.foldl sysStep s (oracle.map Event.step1) = s := by
  induction oracle with
  | nil => rfl
  | cons b bs ih =>
    have hstep : sysStep s (Event.step1 b) = s := by
      obtain ⟨node, t0, ⟨pc, v⟩⟩ := s
      simp only at hpc hv
      subst hpc
      simp [sysStep, lockStep, hv]
    rw [List.map_cons, List.foldl_cons, hstep]
    exact ih

theorem Reachable_three : Reachable (Node.mk 3) := by
  have h1 : Reachable (Node.mk 1) :=
    Reachable.lock InteriorNode (Node.mk 1) [false, false, false] Reachable.interior
      (by decide) (by decide)
  exact Reachable.markInserting (Node.mk 1) h1 (by decide)

/-- A flag test `(v & (1 << k)) != 0` is the bit `k` of `v`. -/
theorem flag_testBit (v k : Nat) : ((v &&& 1 <<< k) != 0) = v.testBit k := by
  rw [flag_test, Nat.testBit_to_div_mod]

/-- The bits of a complemented 32-bit mask. -/
theorem testBit_not32 (m i : Nat) (hm : m < wordSize) :
    (not32 m).testBit i = (decide (i < 32) && !m.testBit i) := by
  have hm32 : m < 2 ^ 32 := hm
  rw [← Nat.testBit_two_pow_sub_succ hm32 i]
  congr 1
  unfold not32 wordSize
  rw [Nat.mod_eq_of_lt hm32]
  omega

/-- The bits of `v | ~(1 << k)` for a flag `k` of a 32-bit word: bit `k` is the one of `v`,
every other bit below 32 is set. -/
theorem testBit_or_not32_flag (v k i : Nat) (hk : k < 32) (hi : i < 32) :
    (v ||| not32 (1 <<< k)).testBit i = (if i = k then v.testBit i else true) := by
  have hlt : 1 <<< k < wordSize := by
    rw [Nat.shiftLeft_eq, Nat.one_mul]
    exact Nat.pow_lt_pow_right (by decide) hk
  rw [Nat.testBit_or, testBit_not32 _ _ hlt, Nat.shiftLeft_eq, Nat.one_mul, Nat.testBit_two_pow]
  by_cases h : i = k
  · subst h; simp
  · have h2 : ¬ k = i := fun e => h e.symm
    simp [h, h2, hi]

/-- Words that agree from bit `k` upwards differ by less than `2 ^ k`. -/
theorem xor_lt_of_shiftRight_eq (a b k : Nat) (h : a >>> k = b >>> k) : a ^^^ b < 2 ^ k := by
  apply Nat.lt_pow_two_of_testBit
  intro i hi
  have ha : a.testBit i = (a >>> k).testBit (i - k) := by
    rw [Nat.testBit_shiftRight]; congr 1; omega
  have hb : b.testBit i = (b >>> k).testBit (i - k) := by
    rw [Nat.testBit_shiftRight]; congr 1; omega
  rw [Nat.testBit_xor, ha, hb, h]
  simp

/-! ## The claims -/

/-- C1, the code at the failing input: a freshly constructed interior node (word 0, so
`locked`, `inserting`, `splitting` and `is_root` clear and an even split generation) goes
through one split critical section; its split generation advances from 0 to 1, and
`HasSplited`, called with the word captured before the section, returns false. -/
theorem HasSplited_false_after_split :
    InteriorNode.Locked = false ∧ InteriorNode.Inserting = false ∧
      InteriorNode.Spliting = false ∧
      vsplitOf InteriorNode.version_ = 0 ∧
      vsplitOf (splitSection InteriorNode).version_ = 1 ∧
      (splitSection InteriorNode).HasSplited InteriorNode.version_ = false := by
  decide

/-- C2, the code at the failing input: when the current and the captured word differ by
exactly the unit increment `kNodeVsplitLowbit`, the difference is at least the unit
increment, and `HasSplited` returns false. -/
theorem HasSplited_false_at_unit_increment :
    ((Node.mk kNodeVsplitLowbit).version_ ^^^ 0) ≥ kNodeVsplitLowbit ∧
      (Node.mk kNodeVsplitLowbit).HasSplited 0 = false := by
  decide

/-- C3: the word stored by `UnLock()` has `locked`, `inserting` and `splitting` clear. -/
theorem UnLock_clears_lock_flags (n : Node) :
    n.UnLock.Locked = false ∧ n.UnLock.Inserting = false ∧ n.UnLock.Spliting = false :=
  UnLock_clears_flags_aux n

/-- C4: when `inserting` is set, the insert-generation field of the word stored by
`UnLock()` is the old insert generation plus one, modulo `2 ^ 7`, whatever the `splitting`
bit. -/
theorem UnLock_insert_generation (n : Node) (hv : n.version_ < wordSize)
    (hins : n.Inserting = true) :
    vinsertOf n.UnLock.version_ = (vinsertOf n.version_ + 1) % 2 ^ 7 := by
  rw [Inserting_eq, decide_eq_true_eq] at hins
  have hv32 : n.version_ < 4294967296 := hv
  have hi := unlockInsert_eq n.version_ hv
  have hilt := unlockInsert_lt n.version_ hv
  have hs := unlockSplit_eq (Node.unlockInsert n.version_) hilt
  rw [vinsertOf_eq, vinsertOf_eq, UnLock_version n hv]
  simp only [hins, if_true]
  split
  · rw [hs]
    split at hi <;> omega
  · split at hi <;> omega

theorem UnLock_insert_generation_witness :
    (Node.mk 0x1fc3).version_ < wordSize ∧ (Node.mk 0x1fc3).Inserting = true ∧
      vinsertOf (Node.mk 0x1fc3).UnLock.version_
        = (vinsertOf (Node.mk 0x1fc3).version_ + 1) % 2 ^ 7 :=
  ⟨by decide, by decide, UnLock_insert_generation (Node.mk 0x1fc3) (by decide) (by decide)⟩

/-- C5, the code at the failing input: the word 0x1fc7 has `locked`, `inserting` and
`splitting` set, insert generation 127 and split generation 0; the word stored by
`UnLock()` has split generation 2, not 1. -/
theorem UnLock_split_generation_advances_by_two :
    (Node.mk 0x1fc7).Spliting = true ∧ (Node.mk 0x1fc7).Inserting = true ∧
      vinsertOf (Node.mk 0x1fc7).version_ = 127 ∧
      vsplitOf (Node.mk 0x1fc7).version_ = 0 ∧
      vsplitOf (Node.mk 0x1fc7).UnLock.version_ = 2 := by
  decide

/-- C6, the code at the failing input: the word 0x1fc3 has `locked` and `inserting` set,
`splitting` clear, insert generation 127 and split generation 0; the word stored by
`UnLock()` has split generation 1. -/
theorem UnLock_split_generation_changes_without_splitting :
    (Node.mk 0x1fc3).Spliting = false ∧ (Node.mk 0x1fc3).Inserting = true ∧
      vinsertOf (Node.mk 0x1fc3).version_ = 127 ∧
      vsplitOf (Node.mk 0x1fc3).version_ = 0 ∧
      vsplitOf (Node.mk 0x1fc3).UnLock.version_ = 1 := by
  decide

/-- C7: after `UnLock()` the `is_root` bit is set exactly when it was set before and
`splitting` was clear. -/
theorem UnLock_is_root (n : Node) (hv : n.version_ < wordSize) :
    n.UnLock.IsRoot = (n.IsRoot && !n.Spliting) := by
  have hv32 : n.version_ < 4294967296 := hv
  rw [IsRoot_eq, IsRoot_eq, Spliting_eq, UnLock_version n hv]
  have hi := unlockInsert_eq n.version_ hv
  have hilt : Node.unlockInsert n.version_ < 4294967296 := unlockInsert_lt n.version_ hv
  have hs := unlockSplit_eq (Node.unlockInsert n.version_) hilt
  have hs0 := unlockSplit_eq n.version_ hv
  by_cases h4 : n.version_ / 4 % 2 = 1 <;> by_cases h2 : n.version_ / 2 % 2 = 1 <;>
    by_cases h16 : n.version_ / 16 % 2 = 1 <;>
    simp only [h4, h2, h16, if_true, if_false, decide_True, decide_False, Bool.not_true,
      Bool.not_false, Bool.and_true, Bool.and_false, Bool.true_and, Bool.false_and,
      decide_eq_true_eq, decide_eq_false_iff_not] <;>
    first
      | (rw [hs]; split at hi <;> omega)
      | (rw [hs0]; omega)
      | (split at hi <;> omega)

theorem UnLock_is_root_witness :
    (Node.mk 0x15).version_ < wordSize ∧
      (Node.mk 0x15).UnLock.IsRoot = ((Node.mk 0x15).IsRoot && !(Node.mk 0x15).Spliting) :=
  ⟨by decide, UnLock_is_root (Node.mk 0x15) (by decide)⟩

/-- Over the steps of the lock discipline that return (`Lock`, `MarkInserting`,
`MarkDeleted`, `MarkIsRoot`, `MarkIsBorder`, `UnLock`; no call of `MarkSpliting` returns),
every reachable version word has `locked` set whenever `inserting` or `splitting` is set. -/
theorem Reachable_dirty_implies_locked (n : Node) (hr : Reachable n) :
    (n.Inserting = true ∨ n.Spliting = true) → n.Locked = true := by
  induction hr with
  | interior => decide
  | border => decide
  | lock n m oracle _ hfree hlock _ =>
    intro _
    rw [Lock_version n m oracle hfree hlock]
    exact MarkLocked_Locked n
  | markInserting n _ hl _ => intro _; exact Mark_keeps_Locked n 1 hl
  | markSpliting n m _ _ hret _ => cases hret
  | markDeleted n _ hl ih =>
    intro h
    exact Mark_keeps_Locked n 3 hl
  | markIsRoot n _ hl ih => intro _; exact Mark_keeps_Locked n 4 hl
  | markIsBorder n _ hl ih => intro _; exact Mark_keeps_Locked n 5 hl
  | unlock n _ _ _ =>
    intro h
    have hc := UnLock_clears_flags_aux n
    rcases h with h | h
    · rw [hc.2.1] at h; cases h
    · rw [hc.2.2] at h; cases h

theorem Reachable_dirty_implies_locked_witness :
    Reachable (Node.mk 3) ∧
      ((Node.mk 3).Inserting = true ∨ (Node.mk 3).Spliting = true) ∧
      (Node.mk 3).Locked = true :=
  ⟨Reachable_three, Or.inl (by decide),
    Reachable_dirty_implies_locked (Node.mk 3) Reachable_three (Or.inl (by decide))⟩

/-- C9, the code at the failing schedule: two threads call `Lock()` on a fresh interior
node and both load the word 0. Thread 0 exchanges 0 for 1 and returns. The exchange of
thread 1 then fails and copies the word 1 into its `v`; its next exchange compares the word
with 1, succeeds, stores `1 | kNodeLocked = 1`, and thread 1 returns too. The schedule has no
`UnLock()`, and the word was already locked before the last exchange. -/
theorem Lock_both_calls_return :
    (sysRun freshSystem bothReturnSchedule).t0.pc = LockPc.done ∧
      (sysRun freshSystem bothReturnSchedule).t1.pc = LockPc.done ∧
      Event.unlock ∉ bothReturnSchedule ∧
      (sysRun freshSystem bothReturnSchedule.dropLast).t0.pc = LockPc.done ∧
      (sysRun freshSystem bothReturnSchedule.dropLast).t1.pc = LockPc.cas ∧
      (sysRun freshSystem bothReturnSchedule.dropLast).node.Locked = true := by
  decide

/-- C10, the code on the failing schedules: thread 0 takes the lock of a fresh interior
node, thread 1 calls `Lock()` and its load observes the locked word, thread 0 executes
`UnLock()`. From then on thread 1 runs alone, for any number of steps and with any pattern
of spurious exchange failures: the lock stays free and thread 1 is still at the test of its
local `v`, so it never returns. -/
theorem Lock_spins_forever_after_locked_load (oracle : List Bool) :
    (sysRun freshSystem (waitSchedule ++ oracle.map Event.step1)).node.Locked = false ∧
      (sysRun freshSystem (waitSchedule ++ oracle.map Event.step1)).t1.pc = LockPc.test ∧
      Node.LockedVersion (sysRun freshSystem waitSchedule.dropLast).t1.v = true := by
  have h0 : sysRun freshSystem waitSchedule
      = ⟨InteriorNode, ⟨LockPc.done, 0⟩, ⟨LockPc.test, kNodeLocked⟩⟩ := by decide
  unfold sysRun at *
  rw [List.foldl_append, h0, sysRun_spinning oracle _ rfl (by decide)]
  decide

/-- C11: the layout of the version word. The six flags are the bits 0..5, `kNodeVinsert` is
the 7 contiguous bits 6..12, `kNodeVsplit` the 18 contiguous bits 13..30, `kNodeUnused` bit
31; the nine masks are pairwise disjoint and together give all 32 bits; each low-bit
constant is a single bit of its mask with no mask bit below it; `kNodeDirty` is
`inserting | splitting`. -/
theorem version_word_layout :
    [kNodeLocked, kNodeInserting, kNodeSpliting, kNodeDeleted, kNodeIsRoot, kNodeIsBorder]
        = [2 ^ 0, 2 ^ 1, 2 ^ 2, 2 ^ 3, 2 ^ 4, 2 ^ 5] ∧
      kNodeVinsert = (2 ^ 7 - 1) <<< 6 ∧
      kNodeVsplit = (2 ^ 18 - 1) <<< 13 ∧
      kNodeUnused = 2 ^ 31 ∧
      List.Pairwise (fun a b : Nat => a &&& b = 0)
        [kNodeLocked, kNodeInserting, kNodeSpliting, kNodeDeleted, kNodeIsRoot,
          kNodeIsBorder, kNodeVinsert, kNodeVsplit, kNodeUnused] ∧
      (kNodeLocked ||| kNodeInserting ||| kNodeSpliting ||| kNodeDeleted ||| kNodeIsRoot |||
          kNodeIsBorder ||| kNodeVinsert ||| kNodeVsplit ||| kNodeUnused) = 2 ^ 32 - 1 ∧
      kNodeVinsertLowbit = 2 ^ 6 ∧
      kNodeVinsertLowbit &&& kNodeVinsert = kNodeVinsertLowbit ∧
      kNodeVinsert % kNodeVinsertLowbit = 0 ∧
      kNodeVsplitLowbit = 2 ^ 13 ∧
      kNodeVsplitLowbit &&& kNodeVsplit = kNodeVsplitLowbit ∧
      kNodeVsplit % kNodeVsplitLowbit = 0 ∧
      kNodeDirty = kNodeInserting ||| kNodeSpliting := by
  decide

/-- C12: `UnmarkIsRoot()` stores `v | ~kNodeIsRoot` and `UnmarkIsBorder()` stores
`v | ~kNodeIsBorder`. In the stored word the target flag is the one of `v` and every other
bit of the 32 is set, so `IsRoot()` (resp. `IsBorder()`) returns what it returned before, and
`Locked()`, `Inserting()`, `Spliting()` and `Deleted()` return true. -/
theorem Unmark_sets_every_other_bit (n : Node) (i : Nat) (hi : i < 32) :
    (n.UnmarkIsRoot.version_ = n.version_ ||| not32 kNodeIsRoot ∧
      n.UnmarkIsRoot.version_.testBit i = (if i = 4 then n.version_.testBit i else true) ∧
      n.UnmarkIsRoot.IsRoot = n.IsRoot ∧
      n.UnmarkIsRoot.Locked = true ∧ n.UnmarkIsRoot.Inserting = true ∧
      n.UnmarkIsRoot.Spliting = true ∧ n.UnmarkIsRoot.Deleted = true) ∧
    (n.UnmarkIsBorder.version_ = n.version_ ||| not32 kNodeIsBorder ∧
      n.UnmarkIsBorder.version_.testBit i = (if i = 5 then n.version_.testBit i else true) ∧
      n.UnmarkIsBorder.IsBorder = n.IsBorder ∧
      n.UnmarkIsBorder.Locked = true ∧ n.UnmarkIsBorder.Inserting = true ∧
      n.UnmarkIsBorder.Spliting = true ∧ n.UnmarkIsBorder.Deleted = true) := by
  have hr := fun j hj => testBit_or_not32_flag n.version_ 4 j (by decide) hj
  have hb := fun j hj => testBit_or_not32_flag n.version_ 5 j (by decide) hj
  refine ⟨⟨rfl, hr i hi, ?_, ?_, ?_, ?_, ?_⟩, ⟨rfl, hb i hi, ?_, ?_, ?_, ?_, ?_⟩⟩
  · exact (flag_testBit _ 4).trans ((hr 4 (by decide)).trans (flag_testBit _ 4).symm)
  · exact (flag_testBit _ 0).trans (hr 0 (by decide))
  · exact (flag_testBit _ 1).trans (hr 1 (by decide))
  · exact (flag_testBit _ 2).trans (hr 2 (by decide))
  · exact (flag_testBit _ 3).trans (hr 3 (by decide))
  · exact (flag_testBit _ 5).trans ((hb 5 (by decide)).trans (flag_testBit _ 5).symm)
  · exact (flag_testBit _ 0).trans (hb 0 (by decide))
  · exact (flag_testBit _ 1).trans (hb 1 (by decide))
  · exact (flag_testBit _ 2).trans (hb 2 (by decide))
  · exact (flag_testBit _ 3).trans (hb 3 (by decide))

theorem Unmark_sets_every_other_bit_witness :
    3 < 32 ∧
      (Node.mk 0x10).UnmarkIsRoot.version_.testBit 3
        = (if 3 = 4 then (Node.mk 0x10).version_.testBit 3 else true) ∧
      (Node.mk 0x10).UnmarkIsRoot.IsRoot = (Node.mk 0x10).IsRoot :=
  ⟨by decide, (Unmark_sets_every_other_bit (Node.mk 0x10) 3 (by decide)).1.2.1,
    (Unmark_sets_every_other_bit (Node.mk 0x10) 3 (by decide)).1.2.2.1⟩

/-- C13: `kPermutationInit` describes an empty node in identity order. Its key count is 0,
and for indices `i`, `j` in `0..14` the position `i` names slot `i`, which is below
`kNodeMax`, and different positions name different slots. -/
theorem kPermutationInit_identity (i j : Int) (hi0 : 0 ≤ i) (hi : i ≤ 14) (hj0 : 0 ≤ j)
    (hj : j ≤ 14) :
    NumKeys kPermutationInit = 0 ∧
      (IndexKey kPermutationInit i : Int) = i ∧
      (IndexKey kPermutationInit i : Int) < kNodeMax ∧
      (IndexKey kPermutationInit i = IndexKey kPermutationInit j → i = j) := by
  have key : ∀ k : Int, 0 ≤ k → k ≤ 14 → (IndexKey kPermutationInit k : Int) = k := by
    intro k hk0 hk
    interval_cases k <;> decide
  refine ⟨by decide, key i hi0 hi, ?_, ?_⟩
  · rw [key i hi0 hi]
    unfold kNodeMax
    omega
  · intro h
    have h2 : (IndexKey kPermutationInit i : Int) = (IndexKey kPermutationInit j : Int) := by
      rw [h]
    rw [key i hi0 hi, key j hj0 hj] at h2
    exact h2

theorem kPermutationInit_identity_witness :
    (0 : Int) ≤ 14 ∧ (14 : Int) ≤ 14 ∧ (0 : Int) ≤ 3 ∧ (3 : Int) ≤ 14 ∧
      NumKeys kPermutationInit = 0 ∧
      (IndexKey kPermutationInit 14 : Int) = 14 ∧
      (IndexKey kPermutationInit 14 : Int) < kNodeMax ∧
      (IndexKey kPermutationInit 14 = IndexKey kPermutationInit 3 → (14 : Int) = 3) :=
  ⟨by decide, by decide, by decide, by decide,
    kPermutationInit_identity 14 3 (by decide) (by decide) (by decide) (by decide)⟩

/-- C14: when the node's word and the captured word agree on every bit from bit 13
upwards, `HasSplited` returns false. -/
theorem HasSplited_false_of_same_high_bits (n : Node) (old : Nat)
    (h : n.version_ >>> kNodeVsplitShift = old >>> kNodeVsplitShift) :
    n.HasSplited old = false := by
  have hlt := xor_lt_of_shiftRight_eq n.version_ old kNodeVsplitShift h
  have hk : kNodeVsplitLowbit = 2 ^ kNodeVsplitShift := by decide
  unfold Node.HasSplited
  rw [hk, decide_eq_false_iff_not]
  omega

theorem HasSplited_false_of_same_high_bits_witness :
    (Node.mk 0x6fff).version_ >>> kNodeVsplitShift = 0x6000 >>> kNodeVsplitShift ∧
      (Node.mk 0x6fff).HasSplited 0x6000 = false :=
  ⟨by decide, HasSplited_false_of_same_high_bits (Node.mk 0x6fff) 0x6000 (by decide)⟩

theorem Deleted_eq (n : Node) : n.Deleted = decide (n.version_ / 8 % 2 = 1) := by
  have h := flag_test n.version_ 3
  simpa [Node.Deleted, kNodeDeleted] using h

theorem IsBorder_eq (n : Node) : n.IsBorder = decide (n.version_ / 32 % 2 = 1) := by
  have h := flag_test n.version_ 5
  simpa [Node.IsBorder, kNodeIsBorder] using h

theorem and_kNodeUnused (x : Nat) : x &&& kNodeUnused = (x / 2147483648 % 2) * 2147483648 := by
  have h : kNodeUnused = 2 ^ 31 := by decide
  rw [h, and_two_pow]
  norm_num

/-- What the insert-generation update leaves alone: the bits 0..5 and the bits from 14. -/
theorem unlockInsert_frame (v : Nat) (hv : v < wordSize) :
    Node.unlockInsert v % 64 = v % 64 ∧ Node.unlockInsert v / 16384 = v / 16384 := by
  have hv32 : v < 4294967296 := hv
  have hi := unlockInsert_eq v hv
  constructor
  · split at hi <;> omega
  · split at hi <;> omega

/-- What the split-generation update leaves alone: the bits 0..3, the bits 5..12 and
bit 31. -/
theorem unlockSplit_frame (v : Nat) (hv : v < wordSize) :
    Node.unlockSplit v % 16 = v % 16 ∧
      Node.unlockSplit v / 32 % 256 = v / 32 % 256 ∧
      Node.unlockSplit v / 2147483648 = v / 2147483648 := by
  have hv32 : v < 4294967296 := hv
  have hs := unlockSplit_eq v hv
  refine ⟨?_, ?_, ?_⟩ <;> omega

/-- Clearing the three low bits changes no bit from bit 3 upwards. -/
theorem sub_mod_eight_fields (w : Nat) :
    (w - w % 8) / 8 % 2 = w / 8 % 2 ∧ (w - w % 8) / 32 % 2 = w / 32 % 2 ∧
      (w - w % 8) / 2147483648 % 2 = w / 2147483648 % 2 ∧
      (w - w % 8) / 64 % 128 = w / 64 % 128 := by
  refine ⟨?_, ?_, ?_, ?_⟩ <;> omega

/-- The `deleted`, `is_border` and unused bits and the insert generation of a word are
determined by its bits 0..3, 5..12 and 31. -/
theorem fields_of_split_frame (w x : Nat) (h16 : w % 16 = x % 16)
    (h32 : w / 32 % 256 = x / 32 % 256) (h31 : w / 2147483648 = x / 2147483648) :
    w / 8 % 2 = x / 8 % 2 ∧ w / 32 % 2 = x / 32 % 2 ∧
      w / 2147483648 % 2 = x / 2147483648 % 2 ∧ w / 64 % 128 = x / 64 % 128 := by
  refine ⟨?_, ?_, ?_, ?_⟩
  · clear h32 h31; omega
  · clear h16 h31; omega
  · rw [h31]
  · clear h16 h31; omega

/-- The `deleted`, `is_border` and unused bits of a word are determined by its bits 0..5
and its bits from 14. -/
theorem fields_of_insert_frame (x v : Nat) (h64 : x % 64 = v % 64)
    (h14 : x / 16384 = v / 16384) :
    x / 8 % 2 = v / 8 % 2 ∧ x / 32 % 2 = v / 32 % 2 ∧
      x / 2147483648 % 2 = v / 2147483648 % 2 := by
  refine ⟨?_, ?_, ?_⟩
  · clear h14; omega
  · clear h14; omega
  · clear h64; omega

/-- The parts of the version word that `UnLock()` leaves alone, in arithmetic form. -/
theorem UnLock_frame_aux (n : Node) (hv : n.version_ < wordSize) :
    n.UnLock.version_ / 8 % 2 = n.version_ / 8 % 2 ∧
      n.UnLock.version_ / 32 % 2 = n.version_ / 32 % 2 ∧
      n.UnLock.version_ / 2147483648 % 2 = n.version_ / 2147483648 % 2 ∧
      (¬ n.version_ / 2 % 2 = 1 → n.UnLock.version_ / 64 % 128 = n.version_ / 64 % 128) := by
  rw [UnLock_version n hv]
  have hilt := unlockInsert_lt n.version_ hv
  obtain ⟨hi1, hi2⟩ := unlockInsert_frame n.version_ hv
  obtain ⟨i8, i32, i31⟩ := fields_of_insert_frame _ _ hi1 hi2
  by_cases h4 : n.version_ / 4 % 2 = 1 <;> by_cases h2 : n.version_ / 2 % 2 = 1 <;>
    simp only [h4, h2, if_true, if_false, not_true_eq_false, not_false_eq_true,
      false_implies, true_implies, and_true]
  · obtain ⟨ha1, ha2, ha3⟩ := unlockSplit_frame (Node.unlockInsert n.version_) hilt
    obtain ⟨s8, s32, s31, _⟩ := fields_of_split_frame _ _ ha1 ha2 ha3
    obtain ⟨c8, c32, c31, _⟩ :=
      sub_mod_eight_fields (Node.unlockSplit (Node.unlockInsert n.version_))
    exact ⟨c8.trans (s8.trans i8), c32.trans (s32.trans i32), c31.trans (s31.trans i31)⟩
  · obtain ⟨hb1, hb2, hb3⟩ := unlockSplit_frame n.version_ hv
    obtain ⟨s8, s32, s31, s64⟩ := fields_of_split_frame _ _ hb1 hb2 hb3
    obtain ⟨c8, c32, c31, c64⟩ := sub_mod_eight_fields (Node.unlockSplit n.version_)
    exact ⟨c8.trans s8, c32.trans s32, c31.trans s31, c64.trans s64⟩
  · obtain ⟨c8, c32, c31, _⟩ := sub_mod_eight_fields (Node.unlockInsert n.version_)
    exact ⟨c8.trans i8, c32.trans i32, c31.trans i31⟩
  · obtain ⟨c8, c32, c31, c64⟩ := sub_mod_eight_fields n.version_
    exact ⟨c8, c32, c31, c64⟩

/-- C15: the word stored by `UnLock()` has the same `deleted` bit, `is_border` bit and
unused bit 31 as the word before, and the same insert-generation field when `inserting`
was clear. -/
theorem UnLock_frame (n : Node) (hv : n.version_ < wordSize) :
    n.UnLock.Deleted = n.Deleted ∧
      n.UnLock.IsBorder = n.IsBorder ∧
      n.UnLock.version_ &&& kNodeUnused = n.version_ &&& kNodeUnused ∧
      (n.Inserting = false → vinsertOf n.UnLock.version_ = vinsertOf n.version_) := by
  obtain ⟨h8, h32, h31, hg⟩ := UnLock_frame_aux n hv
  refine ⟨?_, ?_, ?_, ?_⟩
  · rw [Deleted_eq, Deleted_eq, h8]
  · rw [IsBorder_eq, IsBorder_eq, h32]
  · rw [and_kNodeUnused, and_kNodeUnused, h31]
  · intro hins
    rw [Inserting_eq, decide_eq_false_iff_not] at hins
    rw [vinsertOf_eq, vinsertOf_eq, hg hins]

theorem UnLock_frame_witness :
    (Node.mk 0x8000e02d).version_ < wordSize ∧
      (Node.mk 0x8000e02d).UnLock.Deleted = (Node.mk 0x8000e02d).Deleted ∧
      (Node.mk 0x8000e02d).UnLock.IsBorder = (Node.mk 0x8000e02d).IsBorder ∧
      (Node.mk 0x8000e02d).UnLock.version_ &&& kNodeUnused
        = (Node.mk 0x8000e02d).version_ &&& kNodeUnused ∧
      ((Node.mk 0x8000e02d).Inserting = false →
        vinsertOf (Node.mk 0x8000e02d).UnLock.version_
          = vinsertOf (Node.mk 0x8000e02d).version_) :=
  ⟨by decide, UnLock_frame (Node.mk 0x8000e02d) (by decide)⟩

/-- The bits of `v | (1 << k)`: bit `k` is set, every other bit is the one of `v`. -/
theorem testBit_or_flag (v k i : Nat) :
    (v ||| 1 <<< k).testBit i = (decide (i = k) || v.testBit i) := by
  rw [Nat.testBit_or, Nat.shiftLeft_eq, Nat.one_mul, Nat.testBit_two_pow, Bool.or_comm]
  congr 1
  by_cases h : i = k
  · subst h; simp
  · have h2 : ¬ k = i := fun e => h e.symm
    simp [h, h2]

/-- Setting a flag twice stores the same word as setting it once. -/
theorem or_flag_idem (v k : Nat) : (v ||| 1 <<< k) ||| 1 <<< k = v ||| 1 <<< k := by
  rw [Nat.or_assoc, Nat.or_self]

/-- After a flag is set, its test returns true. -/
theorem flag_test_or_flag (v k : Nat) : (((v ||| 1 <<< k) &&& 1 <<< k) != 0) = true := by
  rw [flag_testBit, testBit_or_flag]
  simp

/-- C16, the code at the failing input together with what holds: for every node,
`MarkSpliting()` has no defined outcome. Each of `MarkLocked`, `MarkInserting`,
`MarkDeleted`, `MarkIsRoot` and `MarkIsBorder` stores the word with its own flag bit set and
every other bit unchanged, twice gives the word of once, and the matching predicate returns
true afterwards; the same holds of the store on line 76 of `MarkSpliting()` taken alone. -/
theorem Mark_sets_own_flag_MarkSpliting_undefined (n : Node) (i : Nat) :
    n.MarkSpliting = none ∧
    (n.MarkLocked.version_.testBit i = (decide (i = 0) || n.version_.testBit i) ∧
      n.MarkLocked.MarkLocked = n.MarkLocked ∧ n.MarkLocked.Locked = true) ∧
    (n.MarkInserting.version_.testBit i = (decide (i = 1) || n.version_.testBit i) ∧
      n.MarkInserting.MarkInserting = n.MarkInserting ∧ n.MarkInserting.Inserting = true) ∧
    (n.MarkDeleted.version_.testBit i = (decide (i = 3) || n.version_.testBit i) ∧
      n.MarkDeleted.MarkDeleted = n.MarkDeleted ∧ n.MarkDeleted.Deleted = true) ∧
    (n.MarkIsRoot.version_.testBit i = (decide (i = 4) || n.version_.testBit i) ∧
      n.MarkIsRoot.MarkIsRoot = n.MarkIsRoot ∧ n.MarkIsRoot.IsRoot = true) ∧
    (n.MarkIsBorder.version_.testBit i = (decide (i = 5) || n.version_.testBit i) ∧
      n.MarkIsBorder.MarkIsBorder = n.MarkIsBorder ∧ n.MarkIsBorder.IsBorder = true) ∧
    (n.markSplitingStore.version_.testBit i = (decide (i = 2) || n.version_.testBit i) ∧
      n.markSplitingStore.markSplitingStore = n.markSplitingStore ∧
      n.markSplitingStore.Spliting = true) := by
  have key : ∀ k : Nat,
      (n.version_ ||| 1 <<< k).testBit i = (decide (i = k) || n.version_.testBit i) ∧
      (Node.mk ((n.version_ ||| 1 <<< k) ||| 1 <<< k) = Node.mk (n.version_ ||| 1 <<< k)) ∧
      (((n.version_ ||| 1 <<< k) &&& 1 <<< k) != 0) = true :=
    fun k => ⟨testBit_or_flag _ k i, congrArg Node.mk (or_flag_idem _ k), flag_test_or_flag _ k⟩
  exact ⟨rfl, key 0, key 1, key 3, key 4, key 5, key 2⟩

/-- A call at its exchange, alone on the node and with `v` equal to the node's word, returns
with `v | kNodeLocked` stored once an exchange does not fail spuriously. -/
theorem lockRun_cas_returns (k : Nat) (rest : List Bool) (n : Node) :
    lockRun (List.replicate k true ++ false :: rest) n ⟨LockPc.cas, n.version_⟩
      = some ⟨n.version_ ||| kNodeLocked⟩ := by
  induction k with
  | zero => cases rest <;> simp [lockRun, lockStep]
  | succ k ih =>
    rw [List.replicate_succ, List.cons_append]
    simp only [lockRun, lockStep]
    simpa using ih

/-- An empty critical section on a 32-bit word with the three low flags clear stores the
word it started from. -/
theorem MarkLocked_UnLock (n : Node) (hv : n.version_ < wordSize) (hl : n.Locked = false)
    (hi : n.Inserting = false) (hs : n.Spliting = false) : n.MarkLocked.UnLock = n := by
  rw [Locked_eq, decide_eq_false_iff_not] at hl
  rw [Inserting_eq, decide_eq_false_iff_not] at hi
  rw [Spliting_eq, decide_eq_false_iff_not] at hs
  have hv32 : n.version_ < 4294967296 := hv
  have hor : n.MarkLocked.version_ = n.version_ + 1 := by
    have h := or_two_pow n.version_ 0
    simp only [Nat.pow_zero, Nat.div_one, Nat.one_mul] at h
    have hk : kNodeLocked = 1 := by decide
    show n.version_ ||| kNodeLocked = n.version_ + 1
    rw [hk, h]
    omega
  have hlt : n.MarkLocked.version_ < wordSize := by
    rw [hor]; unfold wordSize; omega
  have hi2 : ¬ n.MarkLocked.version_ / 2 % 2 = 1 := by rw [hor]; omega
  have hs2 : ¬ n.MarkLocked.version_ / 4 % 2 = 1 := by rw [hor]; omega
  have hu := UnLock_version n.MarkLocked hlt
  simp only [hi2, hs2, if_false] at hu
  have hfin : n.MarkLocked.UnLock.version_ = n.version_ := by
    rw [hu, hor]; omega
  cases n with
  | mk v =>
    cases hm : (Node.mk v).MarkLocked.UnLock with
    | mk w =>
      rw [hm] at hfin
      exact congrArg Node.mk hfin

/-- C17: on a 32-bit word with `locked`, `inserting` and `splitting` clear, a single-threaded
`Lock()` returns as soon as one exchange does not fail spuriously (after any number `k` of
spurious failures), every returning run has stored `v | kNodeLocked`, and the `UnLock()` that
follows at once stores the starting word again, so the whole node is as before. -/
theorem Lock_UnLock_round_trip (n : Node) (hv : n.version_ < wordSize)
    (hl : n.Locked = false) (hi : n.Inserting = false) (hs : n.Spliting = false)
    (a b : Bool) (k : Nat) (rest : List Bool) :
    n.Lock (a :: b :: (List.replicate k true ++ false :: rest))
        = some ⟨n.version_ ||| kNodeLocked⟩ ∧
      (∀ oracle m, n.Lock oracle = some m → m = ⟨n.version_ ||| kNodeLocked⟩) ∧
      Node.UnLock ⟨n.version_ ||| kNodeLocked⟩ = n := by
  have hfree : Node.LockedVersion n.version_ = false := hl
  refine ⟨?_, ?_, MarkLocked_UnLock n hv hl hi hs⟩
  · simp only [Node.Lock, lockRun, LockCall.start, lockStep, hfree]
    simpa using lockRun_cas_returns k rest n
  · intro oracle m h
    exact Lock_version n m oracle hl h

theorem Lock_UnLock_round_trip_witness :
    (Node.mk 0x2070).version_ < wordSize ∧ (Node.mk 0x2070).Locked = false ∧
      (Node.mk 0x2070).Inserting = false ∧ (Node.mk 0x2070).Spliting = false ∧
      (Node.mk 0x2070).Lock (false :: false :: (List.replicate 2 true ++ false :: []))
        = some ⟨(Node.mk 0x2070).version_ ||| kNodeLocked⟩ ∧
      (∀ oracle m, (Node.mk 0x2070).Lock oracle = some m →
        m = ⟨(Node.mk 0x2070).version_ ||| kNodeLocked⟩) ∧
      Node.UnLock ⟨(Node.mk 0x2070).version_ ||| kNodeLocked⟩ = Node.mk 0x2070 :=
  ⟨by decide, by decide, by decide, by decide,
    Lock_UnLock_round_trip (Node.mk 0x2070) (by decide) (by decide) (by decide) (by decide)
      false false 2 []⟩

/-- C18, the code at the failing input: the byte `kKeyTypeLayer | 3` decodes to the type
`kKeyTypeLayer` and to the length 67, not 3. For every length `0..8` the type decodes
correctly for all three types, the length decodes correctly for `kKeyTypeValue` and
`kKeyTypeUnstable`, and for `kKeyTypeLayer` the decoded length is the length plus 64. -/
theorem KeyLength_of_layer_byte :
    KeyType (kKeyTypeLayer ||| 3) = kKeyTypeLayer ∧
      KeyLength (kKeyTypeLayer ||| 3) = 67 ∧
      (∀ L, L ≤ 8 → KeyType (kKeyTypeValue ||| L) = kKeyTypeValue ∧
        KeyType (kKeyTypeLayer ||| L) = kKeyTypeLayer ∧
        KeyType (kKeyTypeUnstable ||| L) = kKeyTypeUnstable ∧
        KeyLength (kKeyTypeValue ||| L) = L ∧
        KeyLength (kKeyTypeUnstable ||| L) = L ∧
        KeyLength (kKeyTypeLayer ||| L) = L + 64) := by
  decide

theorem NumKeys_eq (p : Nat) : NumKeys p = p % 16 := by
  unfold NumKeys
  exact Nat.and_pow_two_sub_one_eq_mod p 4

theorem IndexKey_eq (p k : Nat) : IndexKey p (k : Int) = p / 16 ^ (k + 1) % 16 := by
  unfold IndexKey
  have hk : (((k : Int) * 4) + 4).toNat = 4 * (k + 1) := by omega
  rw [hk, Nat.shiftRight_eq_div_pow, Nat.pow_mul]
  exact Nat.and_pow_two_sub_one_eq_mod _ 4

/-- A 64-bit permutation word is its count nibble plus its 15 position nibbles. -/
theorem permutation_digits (p : Nat) (hp : p < 2 ^ 64) :
    p = NumKeys p + ∑ i in Finset.range 15, IndexKey p (i : Int) * 16 ^ (i + 1) := by
  simp only [Finset.sum_range_succ, Finset.sum_range_zero, IndexKey_eq, NumKeys_eq]
  norm_num
  omega

/-- C19: a 64-bit permutation word `p` is `NumKeys(p)` plus the sum over `i` in `0..14` of
`IndexKey(p, i) * 16 ^ (i + 1)`; `NumKeys(p)` is at most 15, which is `kNodeMax`; every
`IndexKey(p, i)` is below 16; and a 64-bit word `q` with the same `NumKeys` and the same
`IndexKey` at every index `0..14` is `p`. -/
theorem permutation_is_its_nibbles (p q : Nat) (hp : p < 2 ^ 64) (hq : q < 2 ^ 64) :
    p = NumKeys p + ∑ i in Finset.range 15, IndexKey p (i : Int) * 16 ^ (i + 1) ∧
      NumKeys p ≤ 15 ∧ (NumKeys p : Int) ≤ kNodeMax ∧
      (∀ i : Int, IndexKey p i < 16) ∧
      (NumKeys q = NumKeys p →
        (∀ i : Int, 0 ≤ i → i ≤ 14 → IndexKey q i = IndexKey p i) → q = p) := by
  have hn : NumKeys p ≤ 15 := by rw [NumKeys_eq]; omega
  refine ⟨permutation_digits p hp, hn, ?_, ?_, ?_⟩
  · unfold kNodeMax
    omega
  · intro i
    unfold IndexKey
    have h := Nat.and_pow_two_sub_one_eq_mod (p >>> (i * 4 + 4).toNat) 4
    have h15 : (2 : Nat) ^ 4 - 1 = 0xf := by decide
    rw [h15] at h
    rw [h]
    exact Nat.mod_lt _ (by decide)
  · intro hnum hidx
    have hsum : ∑ i in Finset.range 15, IndexKey q (i : Int) * 16 ^ (i + 1)
        = ∑ i in Finset.range 15, IndexKey p (i : Int) * 16 ^ (i + 1) := by
      apply Finset.sum_congr rfl
      intro i hi
      rw [Finset.mem_range] at hi
      rw [hidx (i : Int) (by omega) (by omega)]
    calc q = NumKeys q + ∑ i in Finset.range 15, IndexKey q (i : Int) * 16 ^ (i + 1) :=
          permutation_digits q hq
      _ = NumKeys p + ∑ i in Finset.range 15, IndexKey p (i : Int) * 16 ^ (i + 1) := by
          rw [hnum, hsum]
      _ = p := (permutation_digits p hp).symm

theorem permutation_is_its_nibbles_witness :
    kPermutationInit < 2 ^ 64 ∧ 0xedcba98765432100 < 2 ^ 64 ∧
      NumKeys kPermutationInit ≤ 15 ∧ (NumKeys kPermutationInit : Int) ≤ kNodeMax ∧
      (∀ i : Int, IndexKey kPermutationInit i < 16) :=
  ⟨by decide, by decide,
    (permutation_is_its_nibbles kPermutationInit 0xedcba98765432100 (by decide)
      (by decide)).2.1,
    (permutation_is_its_nibbles kPermutationInit 0xedcba98765432100 (by decide)
      (by decide)).2.2.1,
    (permutation_is_its_nibbles kPermutationInit 0xedcba98765432100 (by decide)
      (by decide)).2.2.2.1⟩

end masstree
